import Mathlib

/-!
Shallow embedding of the incremental commit-graph layout engine of
`src/src/ui/CommitList.cpp` (class `CommitModel`).

Commit identities (`git::Commit`) are modelled as natural numbers; the
commit DAG is given by a parent function `par : Nat → List Nat`
(modelling `commit.parents()`).  Colors (`QColor`) are modelled as
natural numbers compared by value, mirroring the source's comparison of
colors by `QColor::name()`; the fixed tainted color `Qt::gray`
(`kTaintedColor`) is the reserved value `1` and the invalid `QColor()`
is `0`.  The theme palette (`Application::theme()->branchTopologyEdges()`)
is passed explicitly as an ordered list of colors.
-/

set_option autoImplicit false

namespace CommitModel

/-- The drawing segment kinds, from `enum GraphSegment`. -/
inductive GraphSegment where
  | Dot | Top | Middle | Bottom | Cross | LeftIn | LeftOut | RightIn | RightOut
  deriving DecidableEq, Repr

/-- Model of `QColor()` (an invalid color). -/
def noColor : Nat := 0

/-- Model of the fixed tainted color `kTaintedColor` (`Qt::gray`). -/
def kTaintedColor : Nat := 1

/-- One active lineage of the frontier, from `struct Parent`. -/
structure Parent where
  commit : Nat
  color : Nat
  tainted : Bool
  deriving DecidableEq, Repr

/-- Model of `Parent::taintedColor(commit)`: the tainted-aware color of a lane.
The C++ default argument `git::Commit()` (an invalid commit) is the
`none` case of the optional argument. -/
def taintedColorAt (p : Parent) (c : Option Nat) : Nat :=
  if p.tainted && !(some p.commit == c) then kTaintedColor else p.color

/-- One drawing primitive, from `struct Segment`. -/
structure Segment where
  segment : GraphSegment
  color : Nat
  deriving DecidableEq, Repr

/-- A column of one row: stacked segments (`using Column = QList<Segment>`). -/
abbrev Column := List Segment

/-- One row of the model, from `struct Row`.  `commit = none` models the
invalid `git::Commit()` of the synthetic status row. -/
structure Row where
  commit : Option Nat
  columns : List Column
  deriving DecidableEq, Repr

/-- Model of `CommitModel::indexOf`: index of the first frontier entry whose
commit equals `c`, linear search; `none` models the `-1` result. -/
def indexOf (ps : List Parent) (c : Nat) : Option Nat :=
  match ps with
  | [] => none
  | p :: rest => if p.commit = c then some 0 else (indexOf rest c).map (· + 1)

/-- The color stored at frontier slot `j` (`mParents.at(j).color`). -/
def colorAt (ps : List Parent) (j : Nat) : Nat :=
  match ps[j]? with
  | some p => p.color
  | none => noColor

/-- The frontier entry at slot `i` (`parents.at(i)`); the default is
never reached at the in-bounds call sites of the source. -/
def parentAt (ps : List Parent) (i : Nat) : Parent :=
  match ps[i]? with
  | some p => p
  | none => ⟨0, noColor, false⟩

/-- One half of `CommitModel::contains`: whether some row of the given
list holds commit `c` (`row.commit == commit`). -/
def rowsContain (c : Nat) (rows : List Row) : Bool :=
  rows.any (fun r => r.commit == some c)

/-! ### `CommitModel::nextColor` -/

/-- Usage count of color `c` across the frontier
(`counts[parent.color.name()]++`). -/
def colorCount (frontier : List Parent) (c : Nat) : Nat :=
  (frontier.filter (fun p => p.color == c)).length

/-- One pass of the `forever` loop body: the first palette color whose
usage count equals `n`. -/
def findAtCount (palette : List Nat) (frontier : List Parent) (n : Nat) : Option Nat :=
  palette.find? (fun c => colorCount frontier c == n)

/-- The `forever` search of `nextColor`, with explicit fuel; the source
loops `count = 0, 1, 2, ...` until some palette color qualifies. -/
def nextColorAux (palette : List Nat) (frontier : List Parent) : Nat → Nat → Option Nat
  | 0, _ => none
  | fuel + 1, n =>
    match findAtCount palette frontier n with
    | some c => some c
    | none => nextColorAux palette frontier fuel (n + 1)

/-- Model of `CommitModel::nextColor`, as a function of the palette and the
frontier.  Fuel `frontier.length + 1` suffices: the minimal usage count
of a palette color is at most `frontier.length` (proved below). -/
def nextColor (palette : List Nat) (frontier : List Parent) : Option Nat :=
  nextColorAux palette frontier (frontier.length + 1) 0

/-- Variant of `nextColor` with the (unreachable for a nonempty palette) failure
case defaulted, for use inside the layout state transitions. -/
def nextColorD (palette : List Nat) (frontier : List Parent) : Nat :=
  (nextColor palette frontier).getD noColor

/-! #### Lemmas about the color search -/

theorem colorCount_le_length (frontier : List Parent) (c : Nat) :
    colorCount frontier c ≤ frontier.length :=
  List.length_filter_le _ _

/-- A `find?` call returns the first element satisfying the predicate. -/
theorem find?_first {α : Type} (p : α → Bool) (l : List α) (a : α)
    (h : l.find? p = some a) :
    ∃ k : Nat, l[k]? = some a ∧ p a = true ∧
      ∀ (k' : Nat) (b : α), k' < k → l[k']? = some b → p b = false := by
  induction l with
  | nil => simp [List.find?] at h
  | cons x xs ih =>
    rw [List.find?] at h
    by_cases hx : p x = true
    · rw [hx] at h
      simp only [cond_true, Option.some.injEq] at h
      subst h
      refine ⟨0, by simp, hx, ?_⟩
      intro k' b hk' hb
      exact absurd hk' (Nat.not_lt_zero k')
    · rw [Bool.not_eq_true] at hx
      rw [hx] at h
      simp only [cond_false] at h
      obtain ⟨k, hk, hpa, hfirst⟩ := ih h
      refine ⟨k + 1, by simpa using hk, hpa, ?_⟩
      intro k' b hk' hb
      match k' with
      | 0 => simp only [List.getElem?_cons_zero, Option.some.injEq] at hb; subst hb; exact hx
      | k'' + 1 =>
        exact hfirst k'' b (by omega) (by simpa using hb)

theorem findAtCount_isSome_of_mem (palette : List Nat) (frontier : List Parent)
    (c : Nat) (hc : c ∈ palette) :
    (findAtCount palette frontier (colorCount frontier c)).isSome = true := by
  rw [findAtCount, List.find?_isSome]
  exact ⟨c, hc, by simp⟩

/-- If the search has not yet succeeded below `m` and succeeds at `m`,
the fueled loop returns the result found at `m`. -/
theorem nextColorAux_eq (palette : List Nat) (frontier : List Parent)
    (m : Nat) (c : Nat) (hm : findAtCount palette frontier m = some c)
    (hnone : ∀ n < m, findAtCount palette frontier n = none) :
    ∀ fuel n₀, n₀ ≤ m → m < n₀ + fuel →
      nextColorAux palette frontier fuel n₀ = some c := by
  intro fuel
  induction fuel with
  | zero => intro n₀ h1 h2; omega
  | succ fuel ih =>
    intro n₀ h1 h2
    rw [nextColorAux]
    rcases Nat.eq_or_lt_of_le h1 with heq | hlt
    · subst heq
      simp only [hm]
    · simp only [hnone n₀ hlt]
      exact ih (n₀ + 1) hlt (by omega)

/-! ### Frontier update (`CommitModel::fetchMore`, lines 287–317) -/

/-- Model of `QList::takeAt(i)`: remove and return the element at index `i`. -/
def takeAt : List Parent → Nat → Option (Parent × List Parent)
  | [], _ => none
  | p :: ps, 0 => some (p, ps)
  | p :: ps, n + 1 => (takeAt ps n).map (fun r => (r.1, p :: r.2))

/-- Model of `QList::insert(i, x)`: insert `x` at index `i` (in-range at every
call site of the source). -/
def insertAt : List Parent → Nat → Parent → List Parent
  | ps, 0, x => x :: ps
  | [], _ + 1, x => [x]
  | p :: ps, n + 1, x => p :: insertAt ps n x

/-- The `foreach (replacement, replacements) mParents.append(...)` loop:
each extra parent is appended with `nextColor()` evaluated against the
frontier as it stands at that append. -/
def extrasFold (palette : List Nat) (base : List Parent) (rs : List Nat) : List Parent :=
  rs.foldl (fun acc p => acc ++ [⟨p, nextColorD palette acc, false⟩]) base

/-- The list of entries appended by `extrasFold`, defined recursively
(proved equal to the suffix produced by `extrasFold` below). -/
def extrasList (palette : List Nat) (base : List Parent) : List Nat → List Parent
  | [] => []
  | r :: rs =>
    (⟨r, nextColorD palette base, false⟩ : Parent) ::
      extrasList palette (base ++ [⟨r, nextColorD palette base, false⟩]) rs

/-- The "Set parents for next row" block of `fetchMore`: the lane whose
lineage is `c` is taken out; if there are replacements, the first is
inserted back at the same index with the lane's color and the rest are
appended with fresh colors. -/
def updateParents (palette : List Nat) (ps : List Parent) (c : Nat)
    (repl : List Nat) : List Parent :=
  match indexOf ps c with
  | none => ps
  | some idx =>
    match takeAt ps idx with
    | none => ps
    | some (parent, rest) =>
      match repl with
      | [] => rest
      | r :: rs => extrasFold palette (insertAt rest idx ⟨r, parent.color, false⟩) rs

/-- The "Add root commits" block: a commit with no frontier slot is
appended as a fresh lineage before layout. -/
def rootAppend (palette : List Nat) (ps : List Parent) (c : Nat) : List Parent :=
  if (indexOf ps c).isNone then ps ++ [⟨c, nextColorD palette ps, false⟩] else ps

/-! ### Row layout (`CommitModel::columns`, lines 498–565) -/

/-- The append `columns[k] << s`: append segment `s` to column `k` (no-op out of
range; every call site of the source is in range). -/
def appendAt : List Column → Nat → Segment → List Column
  | [], _, _ => []
  | col :: cols, 0, s => (col ++ [s]) :: cols
  | col :: cols, k + 1, s => col :: appendAt cols k s

/-- The `Cross` loop `for (j = s; j < s + n; ++j) columns[j] << Cross`. -/
def crossFold (cols : List Column) (s n : Nat) (c : Nat) : List Column :=
  match n with
  | 0 => cols
  | n + 1 => crossFold (appendAt cols s ⟨.Cross, c⟩) (s + 1) n c

/-- The `if (index == columns.size()) columns.append(Column())` step. -/
def maybeGrow (cols : List Column) (j : Nat) : List Column :=
  if j = cols.length then cols ++ [([] : Column)] else cols

/-- Routing of one successor from source lane `i` to target lane `j`
with color `c` (the three `index < i` / `index > i` / `index == i`
branches of `columns`, including the column append when `j` equals the
current column count). -/
def routeSuccessor (cols : List Column) (i j : Nat) (c : Nat) : List Column :=
  if j < i then
    appendAt (crossFold (appendAt cols j ⟨.RightIn, c⟩) (j + 1) (i - (j + 1)) c)
      i ⟨.LeftOut, c⟩
  else if i < j then
    appendAt
      (maybeGrow (crossFold (appendAt cols i ⟨.RightOut, c⟩) (i + 1) (j - (i + 1)) c) j)
      j ⟨.LeftIn, c⟩
  else
    appendAt cols i ⟨.Bottom, c⟩

/-- The segments that routing one successor from lane `i` to lane `j`
with color `c` adds to column `k` (specification vocabulary for the
claims; `routeSuccessor` is proved to add exactly these). -/
def addedSegs (i j k : Nat) (c : Nat) : List Segment :=
  if j < i then
    if k = j then [⟨.RightIn, c⟩]
    else if j < k ∧ k < i then [⟨.Cross, c⟩]
    else if k = i then [⟨.LeftOut, c⟩]
    else []
  else if i < j then
    if k = i then [⟨.RightOut, c⟩]
    else if i < k ∧ k < j then [⟨.Cross, c⟩]
    else if k = j then [⟨.LeftIn, c⟩]
    else []
  else if k = i then [⟨.Bottom, c⟩] else []

/-- The "Get the successors of this column" step: the advancing lane's successors
are the commit's parents; any other lane carries its commit forward. -/
def laneSuccessors (commit : Nat) (par : Nat → List Nat) (p : Parent) : List Nat :=
  if p.commit = commit then par commit else [p.commit]

/-- The body of the `foreach (successor, successors)` loop: look the
successor up in the next frontier, skip if absent, otherwise pick the
sub-edge color and route. -/
def routeStep (commit : Nat) (single : Bool) (p : Parent) (nextParents : List Parent)
    (i : Nat) (acc : List Column) (s : Nat) : List Column :=
  match indexOf nextParents s with
  | none => acc
  | some j =>
    routeSuccessor acc i j
      (if single then taintedColorAt p (some commit) else colorAt nextParents j)

/-- Outgoing routing of one lane (`columns`, lines 512–555). -/
def routeLane (commit : Nat) (par : Nat → List Nat) (nextParents : List Parent)
    (p : Parent) (i : Nat) (acc : List Column) : List Column :=
  (laneSuccessors commit par p).foldl
    (routeStep commit ((laneSuccessors commit par p).length == 1) p nextParents i) acc

/-- The "Add incoming paths" loop: a `Top` segment for every lane below
`incoming`, colored by the lane's tainted-aware color. -/
def topFold (parents : List Parent) (incoming : Nat) (cols : List Column) : List Column :=
  (List.range incoming).foldl
    (fun acc i => appendAt acc i ⟨.Top, taintedColorAt (parentAt parents i) none⟩) cols

/-- The "Add outgoing paths" loop over all lanes. -/
def outFold (commit : Nat) (par : Nat → List Nat) (nextParents : List Parent)
    (parents : List Parent) (cols : List Column) : List Column :=
  (List.range parents.length).foldl
    (fun acc i => routeLane commit par nextParents (parentAt parents i) i acc) cols

/-- The "Add middle section last" loop: `Dot` on the drawn lane,
`Middle` elsewhere, tainted-aware colors. -/
def midFold (commit : Nat) (parents : List Parent) (cols : List Column) : List Column :=
  (List.range parents.length).foldl
    (fun acc i =>
      appendAt acc i
        ⟨(if (parentAt parents i).commit = commit then .Dot else .Middle),
          taintedColorAt (parentAt parents i) none⟩) cols

/-- Model of `CommitModel::columns`: `parents` is the frontier snapshot of the
current row, `nextParents` the updated frontier (`mParents`). -/
def columnsFn (commit : Nat) (par : Nat → List Nat) (parents nextParents : List Parent)
    (root : Bool) : List Column :=
  midFold commit parents
    (outFold commit par nextParents parents
      (topFold parents (if root then parents.length - 1 else parents.length)
        (List.replicate parents.length ([] : Column))))

/-! ### The pager (`CommitModel::fetchMore`, lines 281–345) -/

/-- The mutable state seen inside one `fetchMore` invocation: the rows
already in the model (`mRows`), the batch built so far (`rows`) and the
frontier (`mParents`). -/
structure FetchState where
  mRows : List Row
  rows : List Row
  mParents : List Parent
  deriving DecidableEq, Repr

/-- Model of `CommitModel::contains(commit, rows)`: the commit was already
emitted in a prior row (`mRows`) or in the current batch (`rows`). -/
def containsC (st : FetchState) (c : Nat) : Bool :=
  rowsContain c st.mRows || rowsContain c st.rows

/-- The `replacements` filter: parents of the commit that are neither in
the frontier (after the root append) nor already emitted. -/
def eligibleParents (palette : List Nat) (par : Nat → List Nat) (st : FetchState)
    (c : Nat) : List Nat :=
  (par c).filter
    (fun p => (indexOf (rootAppend palette st.mParents c) p).isNone && !(containsC st p))

/-- The body of the `while (commit.isValid())` loop for one commit:
root append, frontier snapshot, replacement filter, frontier update,
row layout, row append. -/
def processCommit (palette : List Nat) (par : Nat → List Nat) (gv pe : Bool)
    (st : FetchState) (c : Nat) : FetchState :=
  let root := (indexOf st.mParents c).isNone
  let ps0 := rootAppend palette st.mParents c
  let repl := eligibleParents palette par st c
  let np := updateParents palette ps0 c repl
  let cols := if gv && pe then columnsFn c par ps0 np root else []
  ⟨st.mRows, st.rows ++ [⟨some c, cols⟩], np⟩

/-- The `fetchMore` loop.  `walk` is the rest of the revision walk
(already pathspec-filtered, as `mWalker.next(mPathspec)` delivers it);
`i` is the batch counter.  Returns the final state, the remaining walk,
and whether the walk was exhausted (`!commit.isValid()`, which
invalidates `mWalker`).  `if (i++ >= 64) break` stops after the commit
processed with counter 64, i.e. after the 65th commit of the batch. -/
def fetchLoop (palette : List Nat) (par : Nat → List Nat) (gv pe : Bool) :
    List Nat → Nat → FetchState → FetchState × List Nat × Bool
  | [], _, st => (st, [], true)
  | c :: rest, i, st =>
    let st1 := processCommit palette par gv pe st c
    if 64 ≤ i then (st1, rest, false)
    else fetchLoop palette par gv pe rest (i + 1) st1

/-- The model state between calls: the row store and the frontier. -/
structure ModelState where
  rows : List Row
  parents : List Parent
  deriving DecidableEq, Repr

/-- Model of `CommitModel::fetchMore`: drain one batch from the walk, then append
the batch to the row store.  The returned list is the remaining walk and
the returned flag tells whether the walker was invalidated. -/
def fetchMore (palette : List Nat) (par : Nat → List Nat) (gv pe : Bool)
    (st : ModelState) (walk : List Nat) : ModelState × List Nat × Bool :=
  match fetchLoop palette par gv pe walk 0 ⟨st.rows, [], st.parents⟩ with
  | (fs, rest, done) => (⟨fs.mRows ++ fs.rows, fs.mParents⟩, rest, done)

/-! ### Reset (`CommitModel::resetWalker`, lines 204–261) -/

/-- The inputs `resetWalker` reads: reference state, settings, status
computation state, pathspec.  `statusValid` models `status().isValid()`
(per the spec's backend contract, whether the working-tree status
computation returned a non-empty diff). -/
structure ResetConfig where
  refValid : Bool
  refIsHead : Bool
  refTarget : Nat
  cleanStatus : Bool
  statusFinished : Bool
  statusValid : Bool
  pathspecEmpty : Bool
  graphVisible : Bool
  deriving DecidableEq, Repr

/-- The status-row gate of `resetWalker`:
`head && valid && mPathspec.isEmpty()`. -/
def statusRowCond (cfg : ResetConfig) : Bool :=
  (!cfg.refValid || cfg.refIsHead) &&
    (cfg.cleanStatus || !cfg.statusFinished || cfg.statusValid) &&
    cfg.pathspecEmpty

/-- The "Reset state / Update status row" part of `resetWalker`: clear
the frontier and the rows, then append the synthetic status row (with
its optional `Bottom`+`Dot` column and tainted HEAD lineage) when the
gate holds. -/
def resetState (palette : List Nat) (cfg : ResetConfig) : ModelState :=
  if statusRowCond cfg then
    if cfg.graphVisible && cfg.refValid && cfg.statusFinished then
      ⟨[⟨none, [[⟨.Bottom, kTaintedColor⟩, ⟨.Dot, noColor⟩]]⟩],
        [⟨cfg.refTarget, nextColorD palette [], true⟩]⟩
    else
      ⟨[⟨none, []⟩], []⟩
  else
    ⟨[], []⟩

/-- Model of `CommitModel::resetWalker`: reset the state, create a walk only for
a valid reference (an invalid reference leaves the previous walker
untouched), then fetch one batch if the walker is valid.  The walker is
modelled as `Option (List Nat)` (`none` = invalid `mWalker`). -/
def resetWalker (palette : List Nat) (par : Nat → List Nat) (cfg : ResetConfig)
    (newWalk : List Nat) (prevWalk : Option (List Nat)) :
    ModelState × Option (List Nat) :=
  let st := resetState palette cfg
  match (if cfg.refValid then some newWalk else prevWalk) with
  | some w =>
    match fetchMore palette par cfg.graphVisible cfg.pathspecEmpty st w with
    | (st1, rest, done) => (st1, if done then none else some rest)
  | none => (st, none)

/-! ### Claims about `nextColor` (C3, C10) -/

theorem nextColorAux_nil (frontier : List Parent) :
    ∀ fuel n, nextColorAux [] frontier fuel n = none := by
  intro fuel
  induction fuel with
  | zero => intro n; rfl
  | succ fuel ih => intro n; rw [nextColorAux]; exact ih (n + 1)

/-- The least count at which the palette search succeeds, packaged with
its witness color and the bound `m ≤ frontier.length`. -/
theorem nextColor_search (palette : List Nat) (frontier : List Parent)
    (hp : palette ≠ []) :
    ∃ c m, nextColor palette frontier = some c ∧ m ≤ frontier.length ∧
      findAtCount palette frontier m = some c ∧
      ∀ n < m, findAtCount palette frontier n = none := by
  obtain ⟨c0, hc0⟩ := List.exists_mem_of_ne_nil palette hp
  have hex : ∃ n, (findAtCount palette frontier n).isSome = true :=
    ⟨colorCount frontier c0, findAtCount_isSome_of_mem palette frontier c0 hc0⟩
  have hPm := Nat.find_spec hex
  obtain ⟨c, hc⟩ := Option.isSome_iff_exists.mp hPm
  have hnone : ∀ n < Nat.find hex, findAtCount palette frontier n = none := by
    intro n hn
    have := Nat.find_min hex hn
    simpa [Option.not_isSome_iff_eq_none] using this
  have hmle : Nat.find hex ≤ frontier.length := by
    have h1 : Nat.find hex ≤ colorCount frontier c0 :=
      Nat.find_min' hex (findAtCount_isSome_of_mem palette frontier c0 hc0)
    exact le_trans h1 (colorCount_le_length frontier c0)
  refine ⟨c, Nat.find hex, ?_, hmle, hc, hnone⟩
  exact nextColorAux_eq palette frontier (Nat.find hex) c hc hnone
    (frontier.length + 1) 0 (Nat.zero_le _) (by omega)

/-- C3: for every frontier and non-empty palette, `nextColor` returns
the first palette color (in palette order) whose usage count across the
frontier is the minimum usage count over the palette; it is a pure
function of the frontier and the palette (it is literally a function of
those two arguments in this embedding). -/
theorem C3_nextColor_least_used (palette : List Nat) (frontier : List Parent)
    (hp : palette ≠ []) :
    ∃ c, ∃ k : Nat, nextColor palette frontier = some c ∧
      palette[k]? = some c ∧
      (∀ c' ∈ palette, colorCount frontier c ≤ colorCount frontier c') ∧
      ∀ (k' c' : Nat), k' < k → palette[k']? = some c' →
        colorCount frontier c' ≠ colorCount frontier c := by
  obtain ⟨c, m, hnext, hmle, hfind, hnone⟩ := nextColor_search palette frontier hp
  obtain ⟨k, hk, hpc, hfirst⟩ := find?_first _ _ _ hfind
  have hcm : colorCount frontier c = m := by simpa using hpc
  refine ⟨c, k, hnext, hk, ?_, ?_⟩
  · intro c' hc'
    by_contra hlt
    push_neg at hlt
    rw [hcm] at hlt
    have hsome := findAtCount_isSome_of_mem palette frontier c' hc'
    rw [hnone (colorCount frontier c') hlt] at hsome
    simp at hsome
  · intro k' c' hk' hgetc'
    have := hfirst k' c' hk' hgetc'
    rw [hcm]
    simpa using this

/-- C3 witness: on the palette `[10, 20]` and a frontier using color
`10` once, `nextColor` picks `20`, the unique least-used color. -/
theorem C3_witness :
    ∃ c, ∃ k : Nat, nextColor [10, 20] [⟨0, 10, false⟩] = some c ∧
      ([10, 20] : List Nat)[k]? = some c ∧
      (∀ c' ∈ ([10, 20] : List Nat),
        colorCount [⟨0, 10, false⟩] c ≤ colorCount [⟨0, 10, false⟩] c') ∧
      ∀ (k' c' : Nat), k' < k → ([10, 20] : List Nat)[k']? = some c' →
        colorCount [⟨0, 10, false⟩] c' ≠ colorCount [⟨0, 10, false⟩] c :=
  C3_nextColor_least_used [10, 20] [⟨0, 10, false⟩] (by decide)

/-- C10: for every frontier, the `nextColor` search terminates for a
non-empty palette — it succeeds at a count bounded by the frontier size
— and returns a palette color; for an empty palette no count ever
qualifies, so the source's `forever` loop would never terminate
(non-emptiness of the palette is a necessary precondition). -/
theorem C10_nextColor_termination (palette : List Nat) (frontier : List Parent) :
    (palette ≠ [] →
      ∃ c, ∃ n : Nat, nextColor palette frontier = some c ∧ c ∈ palette ∧
        n ≤ frontier.length ∧ findAtCount palette frontier n = some c ∧
        ∀ n' < n, findAtCount palette frontier n' = none) ∧
    (palette = [] →
      (∀ n : Nat, findAtCount palette frontier n = none) ∧
      nextColor palette frontier = none) := by
  constructor
  · intro hp
    obtain ⟨c, m, hnext, hmle, hfind, hnone⟩ := nextColor_search palette frontier hp
    exact ⟨c, m, hnext, List.mem_of_find?_eq_some hfind, hmle, hfind, hnone⟩
  · intro hp
    subst hp
    exact ⟨fun n => rfl, nextColorAux_nil frontier _ _⟩

/-- C10 witness: concrete instance of the termination statement. -/
theorem C10_witness :
    ∃ c, ∃ n : Nat, nextColor [10, 20] [⟨0, 10, false⟩] = some c ∧
      c ∈ ([10, 20] : List Nat) ∧ n ≤ ([⟨0, 10, false⟩] : List Parent).length ∧
      findAtCount [10, 20] [⟨0, 10, false⟩] n = some c ∧
      ∀ n' < n, findAtCount [10, 20] [⟨0, 10, false⟩] n' = none :=
  (C10_nextColor_termination [10, 20] [⟨0, 10, false⟩]).1 (by decide)

/-! ### Claims about the pagination bound (C5) -/

theorem processCommit_rows_length (palette : List Nat) (par : Nat → List Nat)
    (gv pe : Bool) (st : FetchState) (c : Nat) :
    (processCommit palette par gv pe st c).rows.length = st.rows.length + 1 := by
  simp [processCommit]

theorem processCommit_mRows (palette : List Nat) (par : Nat → List Nat)
    (gv pe : Bool) (st : FetchState) (c : Nat) :
    (processCommit palette par gv pe st c).mRows = st.mRows := rfl

theorem fetchLoop_mRows (palette : List Nat) (par : Nat → List Nat) (gv pe : Bool) :
    ∀ (walk : List Nat) (i : Nat) (st : FetchState),
      (fetchLoop palette par gv pe walk i st).1.mRows = st.mRows := by
  intro walk
  induction walk with
  | nil => intro i st; rfl
  | cons c rest ih =>
    intro i st
    simp only [fetchLoop]
    split
    · rfl
    · rw [ih (i + 1) (processCommit palette par gv pe st c)]
      rfl

/-- The batch loop processes at most `65 - i` further commits: each
processed commit appends one row and consumes one walk element. -/
theorem fetchLoop_bound (palette : List Nat) (par : Nat → List Nat) (gv pe : Bool) :
    ∀ (walk : List Nat) (i : Nat) (st : FetchState), i ≤ 64 →
      (fetchLoop palette par gv pe walk i st).1.rows.length ≤
        st.rows.length + (65 - i) ∧
      walk.length ≤ (fetchLoop palette par gv pe walk i st).2.1.length + (65 - i) := by
  intro walk
  induction walk with
  | nil =>
    intro i st hi
    simp only [fetchLoop, List.length_nil]
    omega
  | cons c rest ih =>
    intro i st hi
    have hlen := processCommit_rows_length palette par gv pe st c
    simp only [fetchLoop]
    split
    · rename_i h64
      constructor
      · simp only [hlen]; omega
      · simp only [List.length_cons]; omega
    · rename_i h64
      have hih := ih (i + 1) (processCommit palette par gv pe st c) (by omega)
      constructor
      · calc (fetchLoop palette par gv pe rest (i + 1)
              (processCommit palette par gv pe st c)).1.rows.length
            ≤ (processCommit palette par gv pe st c).rows.length + (65 - (i + 1)) :=
              hih.1
          _ ≤ st.rows.length + (65 - i) := by omega
      · simp only [List.length_cons]
        have := hih.2
        omega

/-- C5 counterexample: a single `fetchMore` on a 200-commit linear walk
appends 65 rows, not the 64 the claim states: `if (i++ >= 64) break`
stops only after the commit processed with counter 64, the 65th of the
batch. -/
theorem C5_counterexample :
    (fetchMore [10] (fun n => if n + 1 < 200 then [n + 1] else []) false true
        ⟨[], []⟩ (List.range 200)).1.rows.length = 65 ∧ (65 : Nat) ≠ 64 := by
  decide

set_option maxRecDepth 100000 in
/-- C5 amended: every invocation of `fetchMore` pulls at most 65 commits
from the walk and appends at most 65 rows; for a walk yielding 200
commits, exactly 4 calls exhaust it, the first three appending exactly
65 rows each and the last appending 5 (after which the walker is
invalidated). -/
theorem C5_batch_of_65 :
    (∀ (palette : List Nat) (par : Nat → List Nat) (gv pe : Bool)
        (st : ModelState) (walk : List Nat),
      (fetchMore palette par gv pe st walk).1.rows.length ≤ st.rows.length + 65 ∧
      walk.length ≤ (fetchMore palette par gv pe st walk).2.1.length + 65) ∧
    (let par : Nat → List Nat := fun n => if n + 1 < 200 then [n + 1] else [];
     let r1 := fetchMore [10] par false true ⟨[], []⟩ (List.range 200);
     let r2 := fetchMore [10] par false true r1.1 r1.2.1;
     let r3 := fetchMore [10] par false true r2.1 r2.2.1;
     let r4 := fetchMore [10] par false true r3.1 r3.2.1;
     r1.1.rows.length = 65 ∧ r1.2.2 = false ∧
     r2.1.rows.length = 130 ∧ r2.2.2 = false ∧
     r3.1.rows.length = 195 ∧ r3.2.2 = false ∧
     r4.1.rows.length = 200 ∧ r4.2.1 = [] ∧ r4.2.2 = true) := by
  constructor
  · intro palette par gv pe st walk
    have hb := fetchLoop_bound palette par gv pe walk 0 ⟨st.rows, [], st.parents⟩
      (by omega)
    have hm := fetchLoop_mRows palette par gv pe walk 0 ⟨st.rows, [], st.parents⟩
    constructor
    · show ((fetchLoop palette par gv pe walk 0 ⟨st.rows, [], st.parents⟩).1.mRows ++
        (fetchLoop palette par gv pe walk 0 ⟨st.rows, [], st.parents⟩).1.rows).length ≤ _
      rw [List.length_append, hm]
      have h1 := hb.1
      dsimp only at h1 ⊢
      simp only [List.length_nil] at h1
      omega
    · show walk.length ≤
        (fetchLoop palette par gv pe walk 0 ⟨st.rows, [], st.parents⟩).2.1.length + 65
      exact hb.2
  · decide

/-! ### Claims about the linear-chain layout (C6) -/

/-- C6 counterexample: for the chain A→B→C (commits 0←1←2) laid out in
order C, B, A with the graph visible and no path filter, the last
(root) row's single column is `[Top, Dot]`, not the `[Dot]` the claim
states (the root commit still receives its incoming `Top` because it
already occupied a frontier lane). -/
theorem C6_counterexample :
    ((fetchMore [10, 20, 30] (fun n => match n with | 2 => [1] | 1 => [0] | _ => [])
        true true ⟨[], []⟩ [2, 1, 0]).1.rows.map
      (fun r => r.columns.map (fun col => col.map Segment.segment)))[2]? =
      some [[.Top, .Dot]] ∧
    ([[GraphSegment.Top, GraphSegment.Dot]] : List (List GraphSegment)) ≠
      [[GraphSegment.Dot]] := by
  decide

/-- C6 amended: for the chain A→B→C laid out C, B, A, there are exactly
three rows, each with exactly one column; the first row's column is
`[Bottom, Dot]`, the middle row's is `[Top, Bottom, Dot]` (a continuing
lane emits an outgoing `Bottom` in addition to its incoming `Top`), and
the last (root) row's is `[Top, Dot]` with no outgoing `Bottom`. -/
theorem C6_linear_chain_layout :
    ((fetchMore [10, 20, 30] (fun n => match n with | 2 => [1] | 1 => [0] | _ => [])
        true true ⟨[], []⟩ [2, 1, 0]).1.rows.map
      (fun r => (r.commit, r.columns.map (fun col => col.map Segment.segment)))) =
    [(some 2, [[.Bottom, .Dot]]),
     (some 1, [[.Top, .Bottom, .Dot]]),
     (some 0, [[.Top, .Dot]])] := by
  decide

/-! ### Claims about reset with an invalid reference (C9) -/

/-- C9 counterexample: with an invalid selected reference (and no
surviving walker), a reset does not necessarily leave the row store
empty — the synthetic status row is still appended, because the status
gate treats an invalid reference like HEAD. -/
theorem C9_counterexample :
    (resetWalker [10] (fun _ => []) ⟨false, false, 0, true, true, false, true, true⟩
      [] none).1.rows ≠ [] := by
  decide

/-- C9 amended: if the selected reference is invalid and no walker
survives from an earlier reset, a reset leaves the frontier empty,
creates no walk, and leaves the row store empty except for the
synthetic status row, which is present exactly when the status gate
holds.  (This is a valid empty state, not an error.) -/
theorem C9_invalid_ref_reset (palette : List Nat) (par : Nat → List Nat)
    (cfg : ResetConfig) (newWalk : List Nat) (href : cfg.refValid = false) :
    (resetWalker palette par cfg newWalk none).1.parents = [] ∧
    (resetWalker palette par cfg newWalk none).2 = none ∧
    (resetWalker palette par cfg newWalk none).1.rows =
      (if statusRowCond cfg then [⟨none, []⟩] else []) := by
  have hwalker : (if cfg.refValid then some newWalk else (none : Option (List Nat)))
      = none := by rw [href]; rfl
  have hstate : resetState palette cfg =
      (if statusRowCond cfg then ⟨[⟨none, []⟩], []⟩ else ⟨[], []⟩) := by
    rw [resetState, href]
    by_cases h : statusRowCond cfg
    · simp [h]
    · simp [h]
  rw [resetWalker]
  simp only [hwalker, hstate]
  by_cases h : statusRowCond cfg
  · simp [h]
  · simp [h]

/-- C9 witness: concrete instance of the amended reset statement. -/
theorem C9_witness :
    (resetWalker [10] (fun _ => []) ⟨false, false, 0, true, true, false, true, true⟩
      [] none).1.parents = [] ∧
    (resetWalker [10] (fun _ => []) ⟨false, false, 0, true, true, false, true, true⟩
      [] none).2 = none ∧
    (resetWalker [10] (fun _ => []) ⟨false, false, 0, true, true, false, true, true⟩
      [] none).1.rows =
      (if statusRowCond ⟨false, false, 0, true, true, false, true, true⟩
        then [⟨none, []⟩] else []) :=
  C9_invalid_ref_reset [10] (fun _ => [])
    ⟨false, false, 0, true, true, false, true, true⟩ [] rfl

/-! ### Claims about the status row (C8) -/

theorem mem_of_getElem?Row {l : List Row} {n : Nat} {r : Row} (h : l[n]? = some r) :
    r ∈ l := by
  induction l generalizing n with
  | nil => simp at h
  | cons x xs ih =>
    match n with
    | 0 => simp only [List.getElem?_cons_zero, Option.some.injEq] at h; subst h; exact List.mem_cons_self x xs
    | n + 1 => exact List.mem_cons_of_mem x (ih (by simpa using h))

/-- Every row the batch loop appends carries a valid commit: the result
rows are the starting rows followed by commit-bearing rows only. -/
theorem fetchLoop_rows_structure (palette : List Nat) (par : Nat → List Nat)
    (gv pe : Bool) :
    ∀ (walk : List Nat) (i : Nat) (st : FetchState),
      ∃ extra : List Row,
        (fetchLoop palette par gv pe walk i st).1.rows = st.rows ++ extra ∧
        ∀ r ∈ extra, ∃ c : Nat, r.commit = some c := by
  intro walk
  induction walk with
  | nil =>
    intro i st
    exact ⟨[], by simp [fetchLoop], by simp⟩
  | cons c rest ih =>
    intro i st
    obtain ⟨row1, hrows1, hc1⟩ :
        ∃ row1 : Row, (processCommit palette par gv pe st c).rows = st.rows ++ [row1] ∧
          row1.commit = some c := ⟨_, rfl, rfl⟩
    simp only [fetchLoop]
    split
    · refine ⟨[row1], hrows1, ?_⟩
      intro r hr
      simp at hr
      subst hr
      exact ⟨c, hc1⟩
    · obtain ⟨extra, hex, hall⟩ := ih (i + 1) (processCommit palette par gv pe st c)
      refine ⟨[row1] ++ extra, ?_, ?_⟩
      · rw [hex, hrows1, List.append_assoc]
      · intro r hr
        rcases List.mem_append.mp hr with h | h
        · simp at h; subst h; exact ⟨c, hc1⟩
        · exact hall r h

/-- The rows `fetchMore` produces are the incoming row store followed by
commit-bearing rows only. -/
theorem fetchMore_rows_structure (palette : List Nat) (par : Nat → List Nat)
    (gv pe : Bool) (st : ModelState) (walk : List Nat) :
    ∃ extra : List Row,
      (fetchMore palette par gv pe st walk).1.rows = st.rows ++ extra ∧
      ∀ r ∈ extra, ∃ c : Nat, r.commit = some c := by
  obtain ⟨extra, hex, hall⟩ :=
    fetchLoop_rows_structure palette par gv pe walk 0 ⟨st.rows, [], st.parents⟩
  have hm := fetchLoop_mRows palette par gv pe walk 0 ⟨st.rows, [], st.parents⟩
  refine ⟨extra, ?_, hall⟩
  show (fetchLoop palette par gv pe walk 0 ⟨st.rows, [], st.parents⟩).1.mRows ++
    (fetchLoop palette par gv pe walk 0 ⟨st.rows, [], st.parents⟩).1.rows = _
  rw [hm, hex]
  rfl

/-- The row store after `resetWalker` is the reset-state rows followed
by commit-bearing rows only. -/
theorem resetWalker_rows_structure (palette : List Nat) (par : Nat → List Nat)
    (cfg : ResetConfig) (newWalk : List Nat) (prevWalk : Option (List Nat)) :
    ∃ extra : List Row,
      (resetWalker palette par cfg newWalk prevWalk).1.rows =
        (resetState palette cfg).rows ++ extra ∧
      ∀ r ∈ extra, ∃ c : Nat, r.commit = some c := by
  rw [resetWalker]
  cases hw : (if cfg.refValid then some newWalk else prevWalk) with
  | none => exact ⟨[], by simp, by simp⟩
  | some w =>
    obtain ⟨extra, hex, hall⟩ :=
      fetchMore_rows_structure palette par cfg.graphVisible cfg.pathspecEmpty
        (resetState palette cfg) w
    exact ⟨extra, by simpa using hex, hall⟩

theorem resetState_rows (palette : List Nat) (cfg : ResetConfig) :
    (statusRowCond cfg = true →
      ∃ cols : List Column, (resetState palette cfg).rows = [⟨none, cols⟩]) ∧
    (statusRowCond cfg = false → (resetState palette cfg).rows = []) := by
  constructor
  · intro h
    rw [resetState, h]
    by_cases hg : (cfg.graphVisible && cfg.refValid && cfg.statusFinished) = true
    · rw [if_pos rfl]
      simp only [hg, if_true]
      exact ⟨_, rfl⟩
    · rw [if_pos rfl]
      rw [Bool.not_eq_true] at hg
      simp only [hg, Bool.false_eq_true, if_false]
      exact ⟨[], rfl⟩
  · intro h
    rw [resetState, h]
    rfl

/-- C8: whenever the synthetic status row exists it occupies row index
0, and after any reset it exists exactly when (the selected reference is
HEAD or no reference is selected) and (the clean-status setting is on,
or the status computation is still pending, or it returned a non-empty
diff) and no path filter is active; later `fetchMore` batches only
append commit rows, so the status row stays at index 0. -/
theorem C8_status_row (palette : List Nat) (par : Nat → List Nat) (cfg : ResetConfig)
    (newWalk : List Nat) (prevWalk : Option (List Nat)) :
    (∀ (k : Nat) (r : Row),
      (resetWalker palette par cfg newWalk prevWalk).1.rows[k]? = some r →
      r.commit = none → k = 0) ∧
    ((∃ r ∈ (resetWalker palette par cfg newWalk prevWalk).1.rows, r.commit = none) ↔
      ((cfg.refValid = false ∨ cfg.refIsHead = true) ∧
        (cfg.cleanStatus = true ∨ cfg.statusFinished = false ∨ cfg.statusValid = true) ∧
        cfg.pathspecEmpty = true)) ∧
    (∀ (palette' : List Nat) (par' : Nat → List Nat) (gv pe : Bool)
        (st : ModelState) (walk : List Nat),
      (∀ (k : Nat) (r : Row), st.rows[k]? = some r → r.commit = none → k = 0) →
      (∀ (k : Nat) (r : Row),
        (fetchMore palette' par' gv pe st walk).1.rows[k]? = some r →
        r.commit = none → k = 0)) := by
  obtain ⟨extra, hex, hall⟩ :=
    resetWalker_rows_structure palette par cfg newWalk prevWalk
  have hcond : ((cfg.refValid = false ∨ cfg.refIsHead = true) ∧
      (cfg.cleanStatus = true ∨ cfg.statusFinished = false ∨ cfg.statusValid = true) ∧
      cfg.pathspecEmpty = true) ↔ statusRowCond cfg = true := by
    rw [statusRowCond]
    simp [Bool.and_eq_true, Bool.or_eq_true, Bool.not_eq_true']
    tauto
  refine ⟨?_, ?_, ?_⟩
  · intro k r hk hr
    by_cases hc : statusRowCond cfg = true
    · obtain ⟨cols, hcols⟩ := (resetState_rows palette cfg).1 hc
      rw [hex, hcols] at hk
      by_cases hk0 : k = 0
      · exact hk0
      · exfalso
        have h1 : (1 : Nat) ≤ k := by omega
        rw [List.getElem?_append_right (by simpa using h1)] at hk
        obtain ⟨c, hc'⟩ := hall r (mem_of_getElem?Row hk)
        rw [hr] at hc'
        exact Option.noConfusion hc'
    · exfalso
      have hcols := (resetState_rows palette cfg).2 (by simpa using hc)
      rw [hex, hcols, List.nil_append] at hk
      obtain ⟨c, hc'⟩ := hall r (mem_of_getElem?Row hk)
      rw [hr] at hc'
      exact Option.noConfusion hc'
  · rw [hcond]
    constructor
    · rintro ⟨r, hr, hnone⟩
      by_contra hc
      rw [Bool.not_eq_true] at hc
      have hcols := (resetState_rows palette cfg).2 hc
      rw [hex, hcols, List.nil_append] at hr
      obtain ⟨c, hc'⟩ := hall r hr
      rw [hnone] at hc'
      exact Option.noConfusion hc'
    · intro hc
      obtain ⟨cols, hcols⟩ := (resetState_rows palette cfg).1 hc
      refine ⟨⟨none, cols⟩, ?_, rfl⟩
      rw [hex, hcols]
      exact List.mem_append_left _ (List.mem_cons_self _ _)
  · intro palette' par' gv pe st walk hprev k r hk hr
    obtain ⟨extra2, hex2, hall2⟩ :=
      fetchMore_rows_structure palette' par' gv pe st walk
    rw [hex2] at hk
    by_cases hlt : k < st.rows.length
    · rw [List.getElem?_append_left hlt] at hk
      exact hprev k r hk hr
    · exfalso
      rw [List.getElem?_append_right (by omega)] at hk
      obtain ⟨c, hc⟩ := hall2 r (mem_of_getElem?Row hk)
      rw [hr] at hc
      exact Option.noConfusion hc

/-- C8 witness: a concrete reset in which the status row exists (HEAD
selected, clean-status on, no path filter). -/
theorem C8_witness :
    ∃ r ∈ (resetWalker [10] (fun _ => [])
      ⟨true, true, 7, true, true, true, true, false⟩ [] none).1.rows,
      r.commit = none :=
  (C8_status_row [10] (fun _ => [])
    ⟨true, true, 7, true, true, true, true, false⟩ [] none).2.1.mpr (by decide)

/-! ### Claims about the routing of one successor (C2, C7) -/

theorem length_appendAt (cols : List Column) (k : Nat) (s : Segment) :
    (appendAt cols k s).length = cols.length := by
  induction cols generalizing k with
  | nil => rfl
  | cons col cols ih =>
    match k with
    | 0 => rfl
    | k + 1 => simp [appendAt, ih k]

theorem getElem?_appendAt (cols : List Column) (k : Nat) (s : Segment) (m : Nat) :
    (appendAt cols k s)[m]? =
      (cols[m]?).map (fun col => if m = k then col ++ [s] else col) := by
  induction cols generalizing k m with
  | nil => simp [appendAt]
  | cons col cols ih =>
    match k, m with
    | 0, 0 => simp [appendAt]
    | 0, m + 1 => simp [appendAt]
    | k + 1, 0 => simp [appendAt]
    | k + 1, m + 1 =>
      rw [appendAt]
      rw [List.getElem?_cons_succ, List.getElem?_cons_succ, ih k m]
      simp [Nat.succ_inj]

theorem length_crossFold (c : Nat) :
    ∀ (n s : Nat) (cols : List Column), (crossFold cols s n c).length = cols.length := by
  intro n
  induction n with
  | zero => intro s cols; rfl
  | succ n ih =>
    intro s cols
    rw [crossFold, ih (s + 1), length_appendAt]

theorem getElem?_crossFold (c : Nat) :
    ∀ (n s : Nat) (cols : List Column) (m : Nat),
      (crossFold cols s n c)[m]? =
        (cols[m]?).map
          (fun col => if s ≤ m ∧ m < s + n then col ++ [⟨.Cross, c⟩] else col) := by
  intro n
  induction n with
  | zero =>
    intro s cols m
    rw [crossFold]
    cases hm : cols[m]? with
    | none => simp
    | some col =>
      rw [Option.map_some', if_neg (by omega)]
  | succ n ih =>
    intro s cols m
    rw [crossFold, ih (s + 1), getElem?_appendAt, Option.map_map]
    cases hm : cols[m]? with
    | none => simp
    | some col =>
      simp only [Option.map_some', Option.some.injEq, Function.comp_apply]
      by_cases h1 : m = s
      · subst h1
        rw [if_pos rfl, if_neg (by omega), if_pos (by omega)]
      · rw [if_neg h1]
        by_cases h2 : s + 1 ≤ m ∧ m < s + 1 + n
        · rw [if_pos h2, if_pos (by omega)]
        · rw [if_neg h2, if_neg (by omega)]

theorem length_maybeGrow (cols : List Column) (j : Nat) :
    (maybeGrow cols j).length =
      (if j = cols.length then cols.length + 1 else cols.length) := by
  rw [maybeGrow]
  by_cases h : j = cols.length
  · simp [h]
  · simp [h]

/-- Full index-wise characterization of `routeSuccessor`: every existing
column gains exactly the segments of `addedSegs`, the column count grows
by one exactly when `i < j = cols.length`, and in that case the fresh
column holds exactly `addedSegs` at `j`. -/
theorem routeSuccessor_spec (cols : List Column) (i j : Nat) (c : Nat)
    (hi : i < cols.length) (hj : j ≤ cols.length) :
    (routeSuccessor cols i j c).length =
      (if i < j ∧ j = cols.length then cols.length + 1 else cols.length) ∧
    (∀ (k : Nat) (col : Column), cols[k]? = some col →
      (routeSuccessor cols i j c)[k]? = some (col ++ addedSegs i j k c)) ∧
    (i < j → j = cols.length →
      (routeSuccessor cols i j c)[j]? = some (addedSegs i j j c)) := by
  rcases Nat.lt_trichotomy j i with hji | hij | hij
  · -- j < i : RightIn at j, crosses, LeftOut at i
    have hroute : routeSuccessor cols i j c =
        appendAt (crossFold (appendAt cols j ⟨.RightIn, c⟩) (j + 1) (i - (j + 1)) c)
          i ⟨.LeftOut, c⟩ := by
      rw [routeSuccessor, if_pos hji]
    refine ⟨?_, ?_, ?_⟩
    · rw [hroute, length_appendAt, length_crossFold, length_appendAt,
        if_neg (by omega)]
    · intro k col hcol
      rw [hroute, getElem?_appendAt, getElem?_crossFold, getElem?_appendAt,
        Option.map_map, Option.map_map, hcol]
      simp only [Option.map_some', Option.some.injEq, Function.comp_apply]
      rw [addedSegs]
      split_ifs <;> first | rfl | (simp; done) | omega
    · intro h _; omega
  · -- j = i : Bottom at i
    have hroute : routeSuccessor cols i j c = appendAt cols i ⟨.Bottom, c⟩ := by
      rw [routeSuccessor, if_neg (by omega), if_neg (by omega)]
    refine ⟨?_, ?_, ?_⟩
    · rw [hroute, length_appendAt, if_neg (by omega)]
    · intro k col hcol
      rw [hroute, getElem?_appendAt, hcol]
      simp only [Option.map_some', Option.some.injEq]
      rw [addedSegs]
      split_ifs <;> first | rfl | (simp; done) | omega
    · intro h _; omega
  · -- i < j : RightOut at i, crosses, optional growth, LeftIn at j
    have hroute : routeSuccessor cols i j c =
        appendAt
          (maybeGrow (crossFold (appendAt cols i ⟨.RightOut, c⟩) (i + 1)
            (j - (i + 1)) c) j) j ⟨.LeftIn, c⟩ := by
      rw [routeSuccessor, if_neg (by omega), if_pos hij]
    have hlen1 : (crossFold (appendAt cols i ⟨.RightOut, c⟩) (i + 1)
        (j - (i + 1)) c).length = cols.length := by
      rw [length_crossFold, length_appendAt]
    refine ⟨?_, ?_, ?_⟩
    · rw [hroute, length_appendAt, length_maybeGrow, hlen1]
      split_ifs <;> first | rfl | omega
    · intro k col hcol
      have hk : k < cols.length := by
        by_contra hk
        rw [List.getElem?_eq_none (by omega)] at hcol
        exact Option.noConfusion hcol
      have hinner : (crossFold (appendAt cols i ⟨.RightOut, c⟩) (i + 1)
          (j - (i + 1)) c)[k]? = some
            (col ++ (if k = i then [(⟨.RightOut, c⟩ : Segment)]
              else if i < k ∧ k < j then [(⟨.Cross, c⟩ : Segment)] else [])) := by
        rw [getElem?_crossFold, getElem?_appendAt, Option.map_map, hcol]
        simp only [Option.map_some', Option.some.injEq, Function.comp_apply]
        split_ifs <;> first | rfl | (simp; done) | omega
      have hmid : (maybeGrow (crossFold (appendAt cols i ⟨.RightOut, c⟩) (i + 1)
          (j - (i + 1)) c) j)[k]? =
          (crossFold (appendAt cols i ⟨.RightOut, c⟩) (i + 1) (j - (i + 1)) c)[k]? := by
        rw [maybeGrow]
        split_ifs with hg
        · exact List.getElem?_append_left (by rw [hlen1]; omega)
        · rfl
      rw [hroute, getElem?_appendAt, hmid, hinner]
      simp only [Option.map_some', Option.some.injEq]
      rw [addedSegs]
      split_ifs <;> first | rfl | (simp; done) | omega
    · intro h1 h2
      have hmg : (maybeGrow (crossFold (appendAt cols i ⟨.RightOut, c⟩) (i + 1)
          (j - (i + 1)) c) j)[j]? = some ([] : Column) := by
        rw [maybeGrow, if_pos (by rw [hlen1]; omega)]
        rw [List.getElem?_append_right (by rw [hlen1]; omega), hlen1, h2]
        simp
      rw [hroute, getElem?_appendAt, hmg]
      simp only [Option.map_some', Option.some.injEq]
      rw [addedSegs]
      split_ifs <;> first | rfl | (simp; done) | omega

/-- Every segment that routing adds carries the routing color. -/
theorem addedSegs_color (i j k : Nat) (c : Nat) :
    ∀ s ∈ addedSegs i j k c, s.color = c := by
  intro s hs
  rw [addedSegs] at hs
  split_ifs at hs <;> simp_all

/-- C2: routing one successor of source lane `i` whose target lane `j`
is found in the updated frontier adds, for `j < i`, a `RightIn` at
column `j`, a `Cross` at every column strictly between and a `LeftOut`
at column `i`; for `j > i`, a `RightOut` at column `i`, a `Cross` at
every column strictly between and a `LeftIn` at column `j`, with a new
column appended exactly when `j` equals the current column count; for
`j = i`, a single `Bottom` at column `i` (`addedSegs` spells these
positions out); a successor not found in the updated frontier is
skipped without error. -/
theorem C2_successor_routing (cols : List Column) (i j : Nat) (c : Nat)
    (hi : i < cols.length) (hj : j ≤ cols.length) :
    ((routeSuccessor cols i j c).length =
      (if i < j ∧ j = cols.length then cols.length + 1 else cols.length)) ∧
    (∀ (k : Nat) (col : Column), cols[k]? = some col →
      (routeSuccessor cols i j c)[k]? = some (col ++ addedSegs i j k c)) ∧
    (i < j → j = cols.length →
      (routeSuccessor cols i j c)[j]? = some (addedSegs i j j c)) ∧
    (∀ (commit : Nat) (single : Bool) (p : Parent) (nextParents : List Parent)
        (i' : Nat) (acc : List Column) (s : Nat),
      indexOf nextParents s = none →
      routeStep commit single p nextParents i' acc s = acc) := by
  obtain ⟨h1, h2, h3⟩ := routeSuccessor_spec cols i j c hi hj
  refine ⟨h1, h2, h3, ?_⟩
  intro commit single p nextParents i' acc s hnone
  rw [routeStep, hnone]

/-- C2 witness: routing lane 0 to target lane 2 on two columns appends
a fresh column. -/
theorem C2_witness :
    ((routeSuccessor [[], []] 0 2 9).length =
      (if 0 < 2 ∧ 2 = ([[], []] : List Column).length
        then ([[], []] : List Column).length + 1
        else ([[], []] : List Column).length)) ∧
    (∀ (k : Nat) (col : Column), ([[], []] : List Column)[k]? = some col →
      (routeSuccessor [[], []] 0 2 9)[k]? = some (col ++ addedSegs 0 2 k 9)) ∧
    (0 < 2 → 2 = ([[], []] : List Column).length →
      (routeSuccessor [[], []] 0 2 9)[2]? = some (addedSegs 0 2 2 9)) ∧
    (∀ (commit : Nat) (single : Bool) (p : Parent) (nextParents : List Parent)
        (i' : Nat) (acc : List Column) (s : Nat),
      indexOf nextParents s = none →
      routeStep commit single p nextParents i' acc s = acc) :=
  C2_successor_routing [[], []] 0 2 9 (by decide) (by decide)

/-- C7: when a lane routes exactly one successor, the sub-edge is routed
with the source lane's tainted-aware color, and every segment it adds
carries that color; when a lane routes more than one successor (merge
fan-out), each sub-edge is routed with the color of its target lane's
lineage in the updated frontier, and every segment it adds carries that
color. -/
theorem C7_fanout_colors (commit : Nat) (par : Nat → List Nat) (p : Parent)
    (nextParents : List Parent) (i : Nat) (acc : List Column) (s j : Nat)
    (hj : indexOf nextParents s = some j)
    (hi : i < acc.length) (hjl : j ≤ acc.length) :
    (routeStep commit ((laneSuccessors commit par p).length == 1) p nextParents i acc s
      = routeSuccessor acc i j
        (if (laneSuccessors commit par p).length = 1
          then taintedColorAt p (some commit) else colorAt nextParents j)) ∧
    (∀ (k : Nat) (col₀ col : Column), acc[k]? = some col₀ →
      (routeStep commit ((laneSuccessors commit par p).length == 1) p nextParents
        i acc s)[k]? = some col →
      ∀ seg ∈ col.drop col₀.length,
        seg.color = (if (laneSuccessors commit par p).length = 1
          then taintedColorAt p (some commit) else colorAt nextParents j)) ∧
    (i < j → j = acc.length →
      ∀ col : Column,
        (routeStep commit ((laneSuccessors commit par p).length == 1) p nextParents
          i acc s)[j]? = some col →
        ∀ seg ∈ col,
          seg.color = (if (laneSuccessors commit par p).length = 1
            then taintedColorAt p (some commit) else colorAt nextParents j)) := by
  have hstep : routeStep commit ((laneSuccessors commit par p).length == 1) p
      nextParents i acc s = routeSuccessor acc i j
        (if (laneSuccessors commit par p).length = 1
          then taintedColorAt p (some commit) else colorAt nextParents j) := by
    rw [routeStep, hj]
    dsimp only
    by_cases h1 : (laneSuccessors commit par p).length = 1
    · rw [if_pos (by simpa using h1), if_pos h1]
    · rw [if_neg (by simpa using h1), if_neg h1]
  obtain ⟨_, h2, h3⟩ := routeSuccessor_spec acc i j
    (if (laneSuccessors commit par p).length = 1
      then taintedColorAt p (some commit) else colorAt nextParents j) hi hjl
  refine ⟨hstep, ?_, ?_⟩
  · intro k col₀ col hcol₀ hcol seg hseg
    rw [hstep, h2 k col₀ hcol₀] at hcol
    obtain rfl := Option.some.inj hcol
    rw [List.drop_left] at hseg
    exact addedSegs_color i j k _ seg hseg
  · intro hij hlen col hcol seg hseg
    rw [hstep, h3 hij hlen] at hcol
    obtain rfl := Option.some.inj hcol
    exact addedSegs_color i j j _ seg hseg

/-- C7 witness: a merge fan-out lane (two successors) routed on two
columns; the sub-edge to target lane 1 uses that lane's color. -/
theorem C7_witness :
    (routeStep 5 ((laneSuccessors 5 (fun n => if n = 5 then [6, 7] else []) ⟨5, 3, false⟩).length == 1)
        ⟨5, 3, false⟩ [⟨6, 3, false⟩, ⟨7, 4, false⟩] 0 [[], []] 7
      = routeSuccessor [[], []] 0 1
        (if (laneSuccessors 5 (fun n => if n = 5 then [6, 7] else []) ⟨5, 3, false⟩).length = 1
          then taintedColorAt ⟨5, 3, false⟩ (some 5)
          else colorAt [⟨6, 3, false⟩, ⟨7, 4, false⟩] 1)) ∧
    (∀ (k : Nat) (col₀ col : Column), ([[], []] : List Column)[k]? = some col₀ →
      (routeStep 5 ((laneSuccessors 5 (fun n => if n = 5 then [6, 7] else []) ⟨5, 3, false⟩).length == 1)
        ⟨5, 3, false⟩ [⟨6, 3, false⟩, ⟨7, 4, false⟩] 0 [[], []] 7)[k]? = some col →
      ∀ seg ∈ col.drop col₀.length,
        seg.color = (if (laneSuccessors 5 (fun n => if n = 5 then [6, 7] else []) ⟨5, 3, false⟩).length = 1
          then taintedColorAt ⟨5, 3, false⟩ (some 5)
          else colorAt [⟨6, 3, false⟩, ⟨7, 4, false⟩] 1)) ∧
    (0 < 1 → 1 = ([[], []] : List Column).length →
      ∀ col : Column,
        (routeStep 5 ((laneSuccessors 5 (fun n => if n = 5 then [6, 7] else []) ⟨5, 3, false⟩).length == 1)
          ⟨5, 3, false⟩ [⟨6, 3, false⟩, ⟨7, 4, false⟩] 0 [[], []] 7)[1]? = some col →
        ∀ seg ∈ col,
          seg.color = (if (laneSuccessors 5 (fun n => if n = 5 then [6, 7] else []) ⟨5, 3, false⟩).length = 1
            then taintedColorAt ⟨5, 3, false⟩ (some 5)
            else colorAt [⟨6, 3, false⟩, ⟨7, 4, false⟩] 1)) :=
  C7_fanout_colors 5 (fun n => if n = 5 then [6, 7] else []) ⟨5, 3, false⟩
    [⟨6, 3, false⟩, ⟨7, 4, false⟩] 0 [[], []] 7 1 (by decide) (by decide) (by decide)

/-! ### Claims about the frontier update (C1) -/

theorem indexOf_some (c : Nat) :
    ∀ (ps : List Parent) (idx : Nat), indexOf ps c = some idx →
      idx < ps.length ∧ ∃ p, ps[idx]? = some p ∧ p.commit = c := by
  intro ps
  induction ps with
  | nil => intro idx h; simp [indexOf] at h
  | cons p rest ih =>
    intro idx h
    rw [indexOf] at h
    by_cases hp : p.commit = c
    · rw [if_pos hp] at h
      obtain rfl := Option.some.inj h
      exact ⟨by simp, p, by simp, hp⟩
    · rw [if_neg hp] at h
      obtain ⟨idx', hidx', rfl⟩ := Option.map_eq_some'.mp h
      obtain ⟨hlt, q, hq, hqc⟩ := ih idx' hidx'
      exact ⟨by simpa using hlt, q, by simpa using hq, hqc⟩

theorem indexOf_eq_none_iff (c : Nat) :
    ∀ ps : List Parent, indexOf ps c = none ↔ ∀ p ∈ ps, p.commit ≠ c := by
  intro ps
  induction ps with
  | nil => simp [indexOf]
  | cons p rest ih =>
    rw [indexOf]
    by_cases hp : p.commit = c
    · simp [hp]
    · simp only [if_neg hp, Option.map_eq_none', ih, List.mem_cons]
      constructor
      · intro h q hq
        rcases hq with rfl | hq
        · exact hp
        · exact h q hq
      · intro h q hq
        exact h q (Or.inr hq)

theorem takeAt_eq :
    ∀ (ps : List Parent) (idx : Nat) (p : Parent), ps[idx]? = some p →
      takeAt ps idx = some (p, ps.eraseIdx idx) := by
  intro ps
  induction ps with
  | nil => intro idx p h; simp at h
  | cons q rest ih =>
    intro idx p h
    match idx with
    | 0 =>
      obtain rfl := Option.some.inj (by simpa using h)
      rfl
    | idx + 1 =>
      rw [takeAt, ih idx p (by simpa using h)]
      rfl

theorem insertAt_eraseIdx :
    ∀ (ps : List Parent) (idx : Nat) (x : Parent), idx < ps.length →
      insertAt (ps.eraseIdx idx) idx x = ps.set idx x := by
  intro ps
  induction ps with
  | nil => intro idx x h; simp at h
  | cons q rest ih =>
    intro idx x h
    match idx with
    | 0 => simp [insertAt]
    | idx + 1 =>
      show q :: insertAt (rest.eraseIdx idx) idx x = q :: rest.set idx x
      rw [ih idx x (by simpa using h)]

theorem extrasFold_eq (palette : List Nat) :
    ∀ (rs : List Nat) (base : List Parent),
      extrasFold palette base rs = base ++ extrasList palette base rs := by
  intro rs
  induction rs with
  | nil => intro base; simp [extrasFold, extrasList]
  | cons r rs ih =>
    intro base
    show extrasFold palette (base ++ [⟨r, nextColorD palette base, false⟩]) rs = _
    rw [ih, extrasList, List.append_assoc]
    rfl

theorem extrasList_map_commit (palette : List Nat) :
    ∀ (rs : List Nat) (base : List Parent),
      (extrasList palette base rs).map Parent.commit = rs := by
  intro rs
  induction rs with
  | nil => intro base; rfl
  | cons r rs ih =>
    intro base
    rw [extrasList, List.map_cons, ih]

theorem extrasList_color (palette : List Nat) :
    ∀ (rs : List Nat) (base : List Parent) (k : Nat) (e : Parent),
      (extrasList palette base rs)[k]? = some e →
      e.color = nextColorD palette (base ++ (extrasList palette base rs).take k) := by
  intro rs
  induction rs with
  | nil => intro base k e h; simp [extrasList] at h
  | cons r rs ih =>
    intro base k e h
    rw [extrasList] at h ⊢
    match k with
    | 0 =>
      obtain rfl := Option.some.inj (by simpa using h)
      simp
    | k + 1 =>
      rw [List.getElem?_cons_succ] at h
      rw [List.take_succ_cons, List.append_cons]
      exact ih _ k e h

theorem getElem?_set_self' :
    ∀ (l : List Parent) (i : Nat) (x : Parent), i < l.length →
      (l.set i x)[i]? = some x := by
  intro l
  induction l with
  | nil => intro i x h; simp at h
  | cons q rest ih =>
    intro i x h
    match i with
    | 0 => simp
    | i + 1 =>
      show (q :: rest.set i x)[i + 1]? = some x
      rw [List.getElem?_cons_succ]
      exact ih i x (by simpa using h)

theorem getElem?_set_ne' :
    ∀ (l : List Parent) (i k : Nat) (x : Parent), i ≠ k →
      (l.set i x)[k]? = l[k]? := by
  intro l
  induction l with
  | nil => intro i k x h; simp
  | cons q rest ih =>
    intro i k x h
    match i, k with
    | 0, 0 => exact absurd rfl h
    | 0, k + 1 =>
      show (x :: rest)[k + 1]? = (q :: rest)[k + 1]?
      rw [List.getElem?_cons_succ, List.getElem?_cons_succ]
    | i + 1, 0 =>
      show (q :: rest.set i x)[0]? = (q :: rest)[0]?
      simp
    | i + 1, k + 1 =>
      show (q :: rest.set i x)[k + 1]? = _
      rw [List.getElem?_cons_succ, List.getElem?_cons_succ]
      exact ih i k x (by omega)

theorem filter_eq_cons_decomp {α : Type} (p : α → Bool) :
    ∀ (l : List α) (a : α) (l₂ : List α), l.filter p = a :: l₂ →
      ∃ l₁ l₃, l = l₁ ++ a :: l₃ ∧ (∀ x ∈ l₁, p x = false) ∧ p a = true := by
  intro l
  induction l with
  | nil => intro a l₂ h; simp at h
  | cons x xs ih =>
    intro a l₂ h
    rw [List.filter_cons] at h
    by_cases hx : p x = true
    · rw [if_pos hx] at h
      obtain ⟨rfl, -⟩ := List.cons.inj h
      exact ⟨[], xs, rfl, by simp, hx⟩
    · rw [Bool.not_eq_true] at hx
      rw [hx] at h
      simp only [Bool.false_eq_true, if_false] at h
      obtain ⟨l₁, l₃, rfl, hl₁, ha⟩ := ih a l₂ h
      refine ⟨x :: l₁, l₃, rfl, ?_, ha⟩
      intro y hy
      rcases List.mem_cons.mp hy with rfl | hy
      · exact hx
      · exact hl₁ y hy

/-- Structural form of the frontier update when there is at least one
replacement: the first replacement overwrites the taken lane in place
and the rest are appended. -/
theorem updateParents_structure (palette : List Nat) (ps : List Parent) (c : Nat)
    (idx : Nat) (r : Nat) (rs : List Nat) (lane : Parent)
    (hidx : indexOf ps c = some idx) (hlane : ps[idx]? = some lane) :
    updateParents palette ps c (r :: rs) =
      ps.set idx ⟨r, lane.color, false⟩ ++
        extrasList palette (ps.set idx ⟨r, lane.color, false⟩) rs := by
  have hlen : idx < ps.length := (indexOf_some c ps idx hidx).1
  rw [updateParents, hidx]
  dsimp only
  rw [takeAt_eq ps idx lane hlane]
  show extrasFold palette (insertAt (ps.eraseIdx idx) idx ⟨r, lane.color, false⟩) rs = _
  rw [insertAt_eraseIdx ps idx _ hlen, extrasFold_eq]

/-- Structural form of the frontier update when no replacement is
eligible: the taken lane simply disappears. -/
theorem updateParents_empty (palette : List Nat) (ps : List Parent) (c : Nat)
    (idx : Nat) (lane : Parent)
    (hidx : indexOf ps c = some idx) (hlane : ps[idx]? = some lane) :
    updateParents palette ps c [] = ps.eraseIdx idx := by
  rw [updateParents, hidx]
  dsimp only
  rw [takeAt_eq ps idx lane hlane]

theorem processCommit_mParents (palette : List Nat) (par : Nat → List Nat)
    (gv pe : Bool) (st : FetchState) (c : Nat) :
    (processCommit palette par gv pe st c).mParents =
      updateParents palette (rootAppend palette st.mParents c) c
        (eligibleParents palette par st c) := rfl

/-- C1: when a laid-out commit matches frontier lane `idx`, the first
parent that is neither in the frontier nor already emitted takes over
that lane with the lane's color, each further such parent is appended
at the end with a freshly allocated (least-used at its moment of
allocation) color, all other lanes keep their position and contents,
and a parent already in the frontier, in a prior row, or in the current
batch is never among the inserted parents. -/
theorem C1_frontier_update (palette : List Nat) (par : Nat → List Nat) (gv pe : Bool)
    (st : FetchState) (c : Nat) (ps : List Parent) (idx : Nat) (r : Nat)
    (rs : List Nat) (lane : Parent)
    (hps : ps = rootAppend palette st.mParents c)
    (hidx : indexOf ps c = some idx)
    (hlane : ps[idx]? = some lane)
    (hrepl : eligibleParents palette par st c = r :: rs) :
    ((processCommit palette par gv pe st c).mParents =
      ps.set idx ⟨r, lane.color, false⟩ ++
        extrasList palette (ps.set idx ⟨r, lane.color, false⟩) rs) ∧
    ((processCommit palette par gv pe st c).mParents[idx]? =
      some ⟨r, lane.color, false⟩) ∧
    (∀ k : Nat, k < ps.length → k ≠ idx →
      (processCommit palette par gv pe st c).mParents[k]? = ps[k]?) ∧
    ((extrasList palette (ps.set idx ⟨r, lane.color, false⟩) rs).map Parent.commit
      = rs) ∧
    (∀ (k : Nat) (e : Parent),
      (extrasList palette (ps.set idx ⟨r, lane.color, false⟩) rs)[k]? = some e →
      e.color = nextColorD palette (ps.set idx ⟨r, lane.color, false⟩ ++
        (extrasList palette (ps.set idx ⟨r, lane.color, false⟩) rs).take k)) ∧
    (∀ q : Nat, q ∈ r :: rs ↔
      (q ∈ par c ∧ (indexOf ps q).isNone = true ∧ containsC st q = false)) ∧
    (∃ pre post : List Nat, par c = pre ++ r :: post ∧
      ∀ q ∈ pre, ¬((indexOf ps q).isNone = true ∧ containsC st q = false)) := by
  have hlen : idx < ps.length := (indexOf_some c ps idx hidx).1
  have hmain : (processCommit palette par gv pe st c).mParents =
      ps.set idx ⟨r, lane.color, false⟩ ++
        extrasList palette (ps.set idx ⟨r, lane.color, false⟩) rs := by
    rw [processCommit_mParents, ← hps, hrepl]
    exact updateParents_structure palette ps c idx r rs lane hidx hlane
  refine ⟨hmain, ?_, ?_, extrasList_map_commit palette rs _, extrasList_color palette rs _, ?_, ?_⟩
  · rw [hmain,
      List.getElem?_append_left (by rw [List.length_set]; exact hlen),
      getElem?_set_self' ps idx _ hlen]
  · intro k hk hkidx
    rw [hmain,
      List.getElem?_append_left (by rw [List.length_set]; exact hk),
      getElem?_set_ne' ps idx k _ (by omega)]
  · intro q
    rw [← hrepl, eligibleParents, List.mem_filter, hps]
    simp [Bool.and_eq_true, Bool.not_eq_true']
  · have hdec := filter_eq_cons_decomp
      (fun p => (indexOf (rootAppend palette st.mParents c) p).isNone && !(containsC st p))
      (par c) r rs (by rw [← eligibleParents]; exact hrepl)
    obtain ⟨pre, post, hpar, hpre, -⟩ := hdec
    refine ⟨pre, post, hpar, ?_⟩
    intro q hq
    have hthis : ((indexOf (rootAppend palette st.mParents c) q).isNone
        && !containsC st q) = false := hpre q hq
    rw [hps]
    intro hcontra
    rw [hcontra.1, hcontra.2] at hthis
    simp at hthis

/-- C1 witness: commit 5 occupies lane 0 of a one-lane frontier and has
two fresh parents 7 and 8; 7 takes over lane 0 with color 2, 8 is
appended with a fresh color. -/
theorem C1_witness :
    ((processCommit [1, 2] (fun n => if n = 5 then [7, 8] else []) false true
        ⟨[], [], [⟨5, 2, false⟩]⟩ 5).mParents =
      ([⟨5, 2, false⟩] : List Parent).set 0 ⟨7, 2, false⟩ ++
        extrasList [1, 2] (([⟨5, 2, false⟩] : List Parent).set 0 ⟨7, 2, false⟩) [8]) ∧
    ((processCommit [1, 2] (fun n => if n = 5 then [7, 8] else []) false true
        ⟨[], [], [⟨5, 2, false⟩]⟩ 5).mParents[0]? = some ⟨7, 2, false⟩) ∧
    (∀ k : Nat, k < ([⟨5, 2, false⟩] : List Parent).length → k ≠ 0 →
      (processCommit [1, 2] (fun n => if n = 5 then [7, 8] else []) false true
        ⟨[], [], [⟨5, 2, false⟩]⟩ 5).mParents[k]? =
        ([⟨5, 2, false⟩] : List Parent)[k]?) ∧
    ((extrasList [1, 2] (([⟨5, 2, false⟩] : List Parent).set 0 ⟨7, 2, false⟩)
      [8]).map Parent.commit = [8]) ∧
    (∀ (k : Nat) (e : Parent),
      (extrasList [1, 2] (([⟨5, 2, false⟩] : List Parent).set 0 ⟨7, 2, false⟩)
        [8])[k]? = some e →
      e.color = nextColorD [1, 2]
        (([⟨5, 2, false⟩] : List Parent).set 0 ⟨7, 2, false⟩ ++
          (extrasList [1, 2] (([⟨5, 2, false⟩] : List Parent).set 0 ⟨7, 2, false⟩)
            [8]).take k)) ∧
    (∀ q : Nat, q ∈ [7, 8] ↔
      (q ∈ (fun n => if n = 5 then [7, 8] else []) 5 ∧
        (indexOf ([⟨5, 2, false⟩] : List Parent) q).isNone = true ∧
        containsC ⟨[], [], [⟨5, 2, false⟩]⟩ q = false)) ∧
    (∃ pre post : List Nat, (fun n => if n = 5 then [7, 8] else []) 5 =
        pre ++ 7 :: post ∧
      ∀ q ∈ pre, ¬((indexOf ([⟨5, 2, false⟩] : List Parent) q).isNone = true ∧
        containsC ⟨[], [], [⟨5, 2, false⟩]⟩ q = false)) :=
  C1_frontier_update [1, 2] (fun n => if n = 5 then [7, 8] else []) false true
    ⟨[], [], [⟨5, 2, false⟩]⟩ 5 [⟨5, 2, false⟩] 0 7 [8] ⟨5, 2, false⟩
    (by decide) (by decide) (by decide) (by decide)

/-! ### Claims about frontier uniqueness (C4) -/

theorem map_commit_set :
    ∀ (ps : List Parent) (i : Nat) (x : Parent),
      (ps.set i x).map Parent.commit = (ps.map Parent.commit).set i x.commit := by
  intro ps
  induction ps with
  | nil => intro i x; rfl
  | cons q rest ih =>
    intro i x
    match i with
    | 0 => rfl
    | i + 1 =>
      show Parent.commit q :: (rest.set i x).map Parent.commit = _
      rw [ih i x]
      rfl

theorem map_commit_eraseIdx :
    ∀ (ps : List Parent) (i : Nat),
      (ps.eraseIdx i).map Parent.commit = (ps.map Parent.commit).eraseIdx i := by
  intro ps
  induction ps with
  | nil => intro i; rfl
  | cons q rest ih =>
    intro i
    match i with
    | 0 => rfl
    | i + 1 =>
      show Parent.commit q :: (rest.eraseIdx i).map Parent.commit = _
      rw [ih i]
      rfl

theorem nodup_set_of_not_mem :
    ∀ (l : List Nat) (i : Nat) (a : Nat), l.Nodup → a ∉ l → (l.set i a).Nodup := by
  intro l
  induction l with
  | nil => intro i a h _; simpa using h
  | cons x xs ih =>
    intro i a hnd hna
    rw [List.nodup_cons] at hnd
    match i with
    | 0 =>
      rw [List.set_cons_zero, List.nodup_cons]
      exact ⟨fun h => hna (List.mem_cons_of_mem x h), hnd.2⟩
    | i + 1 =>
      rw [List.set_cons_succ, List.nodup_cons]
      refine ⟨?_, ih i a hnd.2 (fun h => hna (List.mem_cons_of_mem x h))⟩
      intro hmem
      rcases List.mem_or_eq_of_mem_set hmem with h | rfl
      · exact hnd.1 h
      · exact hna (List.mem_cons_self x xs)

theorem rootAppend_nodup (palette : List Nat) (ps : List Parent) (c : Nat)
    (hnd : (ps.map Parent.commit).Nodup) :
    ((rootAppend palette ps c).map Parent.commit).Nodup := by
  rw [rootAppend]
  by_cases hroot : (indexOf ps c).isNone = true
  · rw [if_pos hroot, List.map_append, List.nodup_append]
    have hnotmem : ∀ p ∈ ps, p.commit ≠ c :=
      (indexOf_eq_none_iff c ps).mp (Option.isNone_iff_eq_none.mp hroot)
    refine ⟨hnd, List.nodup_singleton c, ?_⟩
    intro a ha hb
    have hac : a = c := by simpa using hb
    subst hac
    obtain ⟨p, hp, hpc⟩ := List.mem_map.mp ha
    exact hnotmem p hp hpc
  · rw [if_neg hroot]
    exact hnd

theorem mem_rootAppend_self (palette : List Nat) (ps : List Parent) (c : Nat) :
    ∃ idx, indexOf (rootAppend palette ps c) c = some idx := by
  rw [rootAppend]
  by_cases hroot : (indexOf ps c).isNone = true
  · rw [if_pos hroot]
    cases hn : indexOf (ps ++ [⟨c, nextColorD palette ps, false⟩]) c with
    | some idx => exact ⟨idx, rfl⟩
    | none =>
      exfalso
      have := (indexOf_eq_none_iff c _).mp hn ⟨c, nextColorD palette ps, false⟩
        (List.mem_append_right ps (List.mem_singleton_self _))
      exact this rfl
  · rw [if_neg hroot]
    cases hn : indexOf ps c with
    | some idx => exact ⟨idx, rfl⟩
    | none => exact absurd (by rw [hn]; rfl) hroot

/-- Laying out one commit preserves frontier uniqueness, provided the
commit's parent list has no duplicates. -/
theorem processCommit_nodup (palette : List Nat) (par : Nat → List Nat) (gv pe : Bool)
    (st : FetchState) (c : Nat)
    (hnd : (st.mParents.map Parent.commit).Nodup) (hpar : (par c).Nodup) :
    ((processCommit palette par gv pe st c).mParents.map Parent.commit).Nodup := by
  have hnd0 : ((rootAppend palette st.mParents c).map Parent.commit).Nodup :=
    rootAppend_nodup palette st.mParents c hnd
  obtain ⟨idx, hidx⟩ := mem_rootAppend_self palette st.mParents c
  obtain ⟨-, lane, hlane, -⟩ := indexOf_some c _ idx hidx
  cases hrepl : eligibleParents palette par st c with
  | nil =>
    rw [processCommit_mParents, hrepl,
      updateParents_empty palette _ c idx lane hidx hlane, map_commit_eraseIdx]
    exact hnd0.sublist (List.eraseIdx_sublist _ idx)
  | cons r rs =>
    rw [processCommit_mParents, hrepl,
      updateParents_structure palette _ c idx r rs lane hidx hlane,
      List.map_append, map_commit_set, extrasList_map_commit]
    have hmemf : ∀ q ∈ r :: rs,
        ((indexOf (rootAppend palette st.mParents c) q).isNone
          && !containsC st q) = true := by
      intro q hq
      rw [← hrepl] at hq
      exact (List.mem_filter.mp hq).2
    have hnotmem : ∀ q ∈ r :: rs,
        q ∉ (rootAppend palette st.mParents c).map Parent.commit := by
      intro q hq hmem
      obtain ⟨p, hp, rfl⟩ := List.mem_map.mp hmem
      have h1 := hmemf p.commit hq
      rw [Bool.and_eq_true] at h1
      exact (indexOf_eq_none_iff p.commit _).mp
        (Option.isNone_iff_eq_none.mp h1.1) p hp rfl
    have hnodup_rrs : (r :: rs).Nodup := by
      rw [← hrepl]
      exact hpar.filter _
    rw [List.nodup_append]
    refine ⟨?_, (List.nodup_cons.mp hnodup_rrs).2, ?_⟩
    · exact nodup_set_of_not_mem _ idx r hnd0
        (hnotmem r (List.mem_cons_self r rs))
    · intro a ha hb
      rcases List.mem_or_eq_of_mem_set ha with h | rfl
      · exact hnotmem a (List.mem_cons_of_mem r hb) h
      · exact (List.nodup_cons.mp hnodup_rrs).1 hb

theorem fetchLoop_nodup (palette : List Nat) (par : Nat → List Nat) (gv pe : Bool)
    (hpar : ∀ c, (par c).Nodup) :
    ∀ (walk : List Nat) (i : Nat) (st : FetchState),
      (st.mParents.map Parent.commit).Nodup →
      ((fetchLoop palette par gv pe walk i st).1.mParents.map Parent.commit).Nodup := by
  intro walk
  induction walk with
  | nil => intro i st h; exact h
  | cons c rest ih =>
    intro i st h
    simp only [fetchLoop]
    split
    · exact processCommit_nodup palette par gv pe st c h (hpar c)
    · exact ih (i + 1) (processCommit palette par gv pe st c)
        (processCommit_nodup palette par gv pe st c h (hpar c))

/-- C4 counterexample: a commit that lists the same parent twice (which
the backend's data model does not forbid) puts two entries with equal
commit identity into the frontier, so the claim does not hold for every
commit stream. -/
theorem C4_counterexample :
    ¬ (((fetchMore [10] (fun n => if n = 10 then [5, 5] else []) false true
      ⟨[], []⟩ [10]).1.parents.map Parent.commit).Nodup) := by
  decide

/-- C4 amended: provided every commit's parent list is free of duplicate
identities and the frontier was duplicate-free beforehand, no two
frontier entries hold equal commit identities after laying out any
single commit (the state between rows) nor after any call to
`fetchMore`. -/
theorem C4_frontier_nodup :
    (∀ (palette : List Nat) (par : Nat → List Nat) (gv pe : Bool) (st : FetchState)
        (c : Nat), (st.mParents.map Parent.commit).Nodup → (par c).Nodup →
      ((processCommit palette par gv pe st c).mParents.map Parent.commit).Nodup) ∧
    (∀ (palette : List Nat) (par : Nat → List Nat) (gv pe : Bool) (st : ModelState)
        (walk : List Nat), (∀ c, (par c).Nodup) →
      (st.parents.map Parent.commit).Nodup →
      ((fetchMore palette par gv pe st walk).1.parents.map Parent.commit).Nodup) := by
  constructor
  · intro palette par gv pe st c h1 h2
    exact processCommit_nodup palette par gv pe st c h1 h2
  · intro palette par gv pe st walk hpar h1
    show ((fetchLoop palette par gv pe walk 0
      ⟨st.rows, [], st.parents⟩).1.mParents.map Parent.commit).Nodup
    exact fetchLoop_nodup palette par gv pe hpar walk 0 ⟨st.rows, [], st.parents⟩ h1

/-- C4 witness: a concrete duplicate-free walk keeps the frontier
duplicate-free. -/
theorem C4_witness :
    ((fetchMore [10] (fun _ => ([] : List Nat)) false true ⟨[], []⟩
      [3]).1.parents.map Parent.commit).Nodup :=
  C4_frontier_nodup.2 [10] (fun _ => ([] : List Nat)) false true ⟨[], []⟩ [3]
    (fun _ => List.nodup_nil) (by decide)

end CommitModel
